import Mathlib

/-!
Verification of the mention-resolution and decay-aggregation pipeline of the
reddit-heatmap backend: the ticker extractor (`backend/ticker_extractor.py`),
the hype aggregator (`backend/hype_calculator.py`) and the batch influence
selector (`backend/main.py`), shallowly embedded in Lean.

Texts are lists of characters; the two compiled regular expressions
`CASHTAG_PATTERN = \$([A-Z]{1,5})\b` and `STANDALONE_PATTERN = \b([A-Z]{2,5})\b`
and the word-boundary searches for entity phrases are embedded as explicit
scanners over character lists.  The regex word class `\w` is modelled as the
ASCII word characters (letters, digits, underscore).
-/

namespace RedditHeatmap

/-- ASCII model of the regex word-character class `\w` used by the
word-boundary assertion `\b` (letters, digits, underscore). -/
def isWordChar (c : Char) : Bool := c.isAlphanum || c == '_'

/-- The character class `[A-Z]` of the two ticker patterns. -/
def isUpperLetter (c : Char) : Bool := 'A' ≤ c && c ≤ 'Z'

/-- The captured groups of `CASHTAG_PATTERN.finditer(text)` for
`CASHTAG_PATTERN = \$([A-Z]{1,5})\b`, in match order.  A `$` matches exactly
when it is followed by a maximal run of 1 to 5 uppercase letters whose
following character (if any) is not a word character (the greedy `{1,5}`
cannot backtrack to a shorter run, since the character after any shorter
prefix of the run is an uppercase letter and `\b` fails there).  The scan
tests every position; this equals the non-overlapping `finditer` scan
because a later `$` can never lie inside an earlier match (the match body
after its `$` consists of uppercase letters only). -/
def cashtagCaptures : List Char → List (List Char)
  | [] => []
  | c :: rest =>
    let tail := cashtagCaptures rest
    if c = '$' then
      let run := rest.takeWhile isUpperLetter
      if 1 ≤ run.length && run.length ≤ 5 &&
          (match (rest.drop run.length).head? with
           | none => true
           | some d => !isWordChar d) then
        run :: tail
      else
        tail
    else
      tail

/-- Scanner for `STANDALONE_PATTERN = \b([A-Z]{2,5})\b`; `prevWord` records
whether the character just before the current position is a word character
(the information the leading `\b` needs).  A match starts at a position with
no word character before it and consists of a maximal run of 2 to 5 uppercase
letters followed by a non-word character or the end of the text.  The scan
tests every position; this equals the non-overlapping `finditer` scan because
no position strictly inside or directly after a match can start a new match
(the character before it is an uppercase letter, so the leading `\b` fails). -/
def standaloneAux (prevWord : Bool) : List Char → List (List Char)
  | [] => []
  | c :: rest =>
    let tail := standaloneAux (isWordChar c) rest
    if !prevWord && isUpperLetter c then
      let run := c :: rest.takeWhile isUpperLetter
      if 2 ≤ run.length && run.length ≤ 5 &&
          (match (rest.drop (run.length - 1)).head? with
           | none => true
           | some d => !isWordChar d) then
        run :: tail
      else
        tail
    else
      tail

/-- The captured groups of `STANDALONE_PATTERN.finditer(text)`. -/
def standaloneCaptures (cs : List Char) : List (List Char) :=
  standaloneAux false cs

/-- The character of the text at index `i`, if any. -/
def charAt (cs : List Char) (i : Nat) : Option Char :=
  (cs.drop i).head?

/-- Whether the text has a word character at index `i`
(out-of-range counts as not a word character). -/
def isWordAt (cs : List Char) (i : Nat) : Bool :=
  match charAt cs i with
  | some c => isWordChar c
  | none => false

/-- Whether the character just before index `i` is a word character. -/
def prevIsWordAt (cs : List Char) (i : Nat) : Bool :=
  match i with
  | 0 => false
  | j + 1 => isWordAt cs j

/-- The regex word-boundary assertion `\b` at position `i` of the text. -/
def boundaryAt (cs : List Char) (i : Nat) : Bool :=
  prevIsWordAt cs i != isWordAt cs i

/-- Whether `re.search(rf'\b{re.escape(entity)}\b', cs)` matches at
position `i`: the literal phrase occurs there, flanked by word boundaries. -/
def entityOccursAt (cs entity : List Char) (i : Nat) : Bool :=
  ((cs.drop i).take entity.length == entity) &&
  boundaryAt cs i &&
  boundaryAt cs (i + entity.length)

/-- Whether `re.search(rf'\b{re.escape(entity)}\b', cs)` finds a match. -/
def entityOccurs (cs entity : List Char) : Bool :=
  (List.range (cs.length + 1)).any (fun i => entityOccursAt cs entity i)

/-- `text.lower()` (ASCII model). -/
def toLowerList (cs : List Char) : List Char :=
  cs.map Char.toLower

/-- The static lexicon loaded at startup: `VALID_TICKERS`, `EXCLUDED_WORDS`
and the reverse lookup `ENTITY_TO_TICKER` (lowercased phrase to ticker, in
insertion order).  The JSON data files are configuration, so the lexicon is a
parameter of the extraction functions. -/
structure LexiconStore where
  validTickers : List (List Char)
  excludedWords : List (List Char)
  entityIndex : List (List Char × List Char)

/-- `extract_tickers(text)`: the set of tickers found by the three strategies.
Strategy 1 (cashtags) checks membership in `VALID_TICKERS` only; strategy 2
(standalone uppercase runs) additionally requires absence from
`EXCLUDED_WORDS`; strategy 3 adds the mapped ticker of every entity phrase
found in the lowercased text. -/
def extract_tickers (lex : LexiconStore) (text : List Char) : Finset (List Char) :=
  ((cashtagCaptures text).filter (fun t => decide (t ∈ lex.validTickers))).toFinset ∪
  ((standaloneCaptures text).filter
      (fun t => decide (t ∈ lex.validTickers ∧ t ∉ lex.excludedWords))).toFinset ∪
  ((lex.entityIndex.filter
      (fun p => entityOccurs (toLowerList text) p.1)).map Prod.snd).toFinset

/-- How a ticker was matched, as reported by the diagnostic variant
(`match_type` plus, for entity matches, `matched_entity`). -/
inductive MatchType where
  | cashtag : MatchType
  | standalone : MatchType
  | entity : List Char → MatchType
deriving DecidableEq

/-- The cashtag loop of `extract_tickers_with_context`: walks the cashtag
captures, appending `(ticker, "cashtag")` for each valid not-yet-seen ticker
and recording it as seen.  Returns the entries and the updated seen set. -/
def ctxCashtagLoop (lex : LexiconStore) :
    List (List Char) → List (List Char) → List (List Char × MatchType) × List (List Char)
  | [], seen => ([], seen)
  | t :: ts, seen =>
    if t ∈ lex.validTickers ∧ t ∉ seen then
      let out := ctxCashtagLoop lex ts (t :: seen)
      ((t, MatchType.cashtag) :: out.1, out.2)
    else
      ctxCashtagLoop lex ts seen

/-- The standalone loop of `extract_tickers_with_context`: valid, not
excluded, not yet seen. -/
def ctxStandaloneLoop (lex : LexiconStore) :
    List (List Char) → List (List Char) → List (List Char × MatchType) × List (List Char)
  | [], seen => ([], seen)
  | t :: ts, seen =>
    if t ∈ lex.validTickers ∧ t ∉ lex.excludedWords ∧ t ∉ seen then
      let out := ctxStandaloneLoop lex ts (t :: seen)
      ((t, MatchType.standalone) :: out.1, out.2)
    else
      ctxStandaloneLoop lex ts seen

/-- The entity loop of `extract_tickers_with_context`: for each
`(entity, ticker)` pair of the index whose ticker is not yet seen, search the
lowercased text for the phrase. -/
def ctxEntityLoop (textLower : List Char) :
    List (List Char × List Char) → List (List Char) →
      List (List Char × MatchType) × List (List Char)
  | [], seen => ([], seen)
  | p :: ps, seen =>
    if p.2 ∉ seen ∧ entityOccurs textLower p.1 then
      let out := ctxEntityLoop textLower ps (p.2 :: seen)
      ((p.2, MatchType.entity p.1) :: out.1, out.2)
    else
      ctxEntityLoop textLower ps seen

/-- `extract_tickers_with_context(text)`: the diagnostic variant; the three
strategies run in priority order cashtag, standalone, entity, sharing one
`seen_tickers` set so a ticker is reported once with its highest-priority
match type. -/
def extract_tickers_with_context (lex : LexiconStore) (text : List Char) :
    List (List Char × MatchType) :=
  let s1 := ctxCashtagLoop lex (cashtagCaptures text) []
  let s2 := ctxStandaloneLoop lex (standaloneCaptures text) s1.2
  let s3 := ctxEntityLoop (toLowerList text) lex.entityIndex s2.2
  s1.1 ++ s2.1 ++ s3.1

/-! ## The hype aggregator (`backend/hype_calculator.py`)

Instants and durations are real numbers counted in seconds, so
`(now - timestamp).total_seconds()` becomes `now - timestamp`.  Python
`round(x, d)` is modelled as `round (x * 10^d) / 10^d` with Mathlib `round`
(round-half-up); it agrees with Python except on exact half-way ties, which
none of the statements below depends on.  The rounded fields are rational by
construction, so `HypeScore` carries them in `ℚ`. -/

/-- `HALF_LIFE_SECONDS` (10 minutes). -/
def HALF_LIFE_SECONDS : ℝ := 600

/-- `POST_WEIGHT`. -/
def POST_WEIGHT : ℝ := 1.5

/-- `COMMENT_WEIGHT`. -/
def COMMENT_WEIGHT : ℝ := 1.0

/-- Record of a single mention for hype calculation. -/
structure MentionRecord where
  ticker : String
  timestamp : ℝ
  content_type : String
  sentiment : ℝ

/-- Calculated hype score for a ticker. -/
structure HypeScore where
  ticker : String
  hype : ℚ
  mention_count : ℕ
  avg_sentiment : ℚ
  velocity : ℚ
deriving DecidableEq

/-- The mutable state of a `HypeCalculator`: the live mention window, the
configured half-life and the last-cleanup instant set by `__init__` and
`_cleanup_old_mentions`.  `decay_lambda` is derived from the half-life. -/
structure HypeCalculator where
  mentions : List MentionRecord
  half_life : ℝ
  last_cleanup : ℝ

/-- `self.decay_lambda = math.log(2) / half_life_seconds`. -/
noncomputable def decayLambda (half_life : ℝ) : ℝ :=
  Real.log 2 / half_life

/-- `round(x, d)` of the Python source, as a rational. -/
noncomputable def roundTo (d : ℕ) (x : ℝ) : ℚ :=
  (round (x * (10 : ℝ) ^ d) : ℚ) / (10 : ℚ) ^ d

/-- The base weight chosen in `_calculate_weight`:
`POST_WEIGHT if mention.content_type == "post" else COMMENT_WEIGHT`. -/
noncomputable def baseWeight (content_type : String) : ℝ :=
  if content_type = "post" then POST_WEIGHT else COMMENT_WEIGHT

/-- `_calculate_weight(mention, now)`: base weight times exponential decay
of the age in seconds. -/
noncomputable def calculate_weight (half_life : ℝ) (m : MentionRecord) (now : ℝ) : ℝ :=
  baseWeight m.content_type * Real.exp (-(decayLambda half_life * (now - m.timestamp)))

/-- The mentions of one ticker in the window, in insertion order. -/
def mentionsFor (st : HypeCalculator) (tk : String) : List MentionRecord :=
  st.mentions.filter (fun m => m.ticker == tk)

/-- The per-ticker accumulator `total_weight` of the aggregation loops. -/
noncomputable def totalWeight (st : HypeCalculator) (tk : String) (now : ℝ) : ℝ :=
  ((mentionsFor st tk).map (fun m => calculate_weight st.half_life m now)).sum

/-- The per-ticker accumulator `sentiment_sum`. -/
noncomputable def sentimentSum (st : HypeCalculator) (tk : String) : ℝ :=
  ((mentionsFor st tk).map (fun m => m.sentiment)).sum

/-- The per-ticker accumulator `count`. -/
def countFor (st : HypeCalculator) (tk : String) : ℕ :=
  (mentionsFor st tk).length

/-- The per-ticker accumulator `recent_count`: mentions with
`mention.timestamp > five_min_ago`. -/
noncomputable def recentCountFor (st : HypeCalculator) (tk : String) (now : ℝ) : ℕ :=
  ((mentionsFor st tk).filter (fun m => decide (now - 5 * 60 < m.timestamp))).length

/-- The `HypeScore` built for a ticker, shared verbatim by `get_hype_scores`
and `get_ticker_hype`: `hype=round(total_weight, 2)`,
`avg_sentiment=round(sentiment_sum / count, 3)`,
`velocity=round(recent_count / 5.0, 2)`. -/
noncomputable def scoreFor (st : HypeCalculator) (tk : String) (now : ℝ) : HypeScore :=
  { ticker := tk
    hype := roundTo 2 (totalWeight st tk now)
    mention_count := countFor st tk
    avg_sentiment := roundTo 3 (sentimentSum st tk / (countFor st tk : ℝ))
    velocity := roundTo 2 ((recentCountFor st tk now : ℝ) / 5) }

/-- The keys of the `ticker_data` accumulator dict of `get_hype_scores`, in
insertion order: Python dicts iterate in the order keys were first inserted,
which is the order each ticker first occurs in `self.mentions`. -/
def firstOccurrenceTickers (ms : List MentionRecord) : List String :=
  ms.foldl (fun acc m => if m.ticker ∈ acc then acc else acc ++ [m.ticker]) []

/-- The `scores` list of `get_hype_scores` before sorting: one `HypeScore`
per `ticker_data` key, skipping keys with `count == 0` (the code guard). -/
noncomputable def hypeScoreList (st : HypeCalculator) (now : ℝ) : List HypeScore :=
  (((firstOccurrenceTickers st.mentions).filter
      (fun tk => decide (countFor st tk ≠ 0))).map (fun tk => scoreFor st tk now))

/-- `get_hype_scores(top_n)`: `scores.sort(key=lambda x: x.hype, reverse=True)`
is a stable sort by hype descending (modelled by the stable `mergeSort` with
the total preorder `b.hype ≤ a.hype`), then `scores[:top_n]`. -/
noncomputable def get_hype_scores (st : HypeCalculator) (now : ℝ) (top_n : ℕ) :
    List HypeScore :=
  ((hypeScoreList st now).mergeSort (fun a b => decide (b.hype ≤ a.hype))).take top_n

/-- `get_ticker_hype(ticker)`: the same per-ticker aggregation restricted to
one ticker; `None` when `count == 0`. -/
noncomputable def get_ticker_hype (st : HypeCalculator) (tk : String) (now : ℝ) :
    Option HypeScore :=
  if countFor st tk = 0 then none else some (scoreFor st tk now)

/-- The hype reported for a ticker by the single-ticker snapshot, reading the
absent value as 0 (used to state increment and monotonicity properties). -/
noncomputable def reportedHype (st : HypeCalculator) (tk : String) (now : ℝ) : ℚ :=
  (get_ticker_hype st tk now).elim 0 (fun h => h.hype)

/-- `_cleanup_old_mentions(max_age_minutes=60)`: drop every record whose
timestamp is not after `now - timedelta(minutes=60)` and stamp the cleanup. -/
noncomputable def cleanup_old_mentions (st : HypeCalculator) (now : ℝ) : HypeCalculator :=
  { st with
    mentions := st.mentions.filter (fun m => decide (now - 60 * 60 < m.timestamp))
    last_cleanup := now }

/-- `add_mention(...)`: append the record to the window, then run the
periodic cleanup if more than 300 seconds have passed since the last one.
The wall clock read by `datetime.now()` during the call is `now`. -/
noncomputable def add_mention (st : HypeCalculator) (r : MentionRecord) (now : ℝ) :
    HypeCalculator :=
  let st1 := { st with mentions := st.mentions ++ [r] }
  if 300 < now - st.last_cleanup then cleanup_old_mentions st1 now else st1

/-- The dictionary returned by `get_stats()`. -/
structure GlobalStats where
  total_mentions : ℕ
  unique_tickers : ℕ
  mentions_last_5min : ℕ
  mentions_last_hour : ℕ
  velocity : ℚ

/-- `get_stats()`: plain counts over the live window. -/
noncomputable def get_stats (st : HypeCalculator) (now : ℝ) : GlobalStats :=
  let recent := st.mentions.filter (fun m => decide (now - 5 * 60 < m.timestamp))
  let hourly := st.mentions.filter (fun m => decide (now - 60 * 60 < m.timestamp))
  { total_mentions := st.mentions.length
    unique_tickers := ((st.mentions.map (fun m => m.ticker)).dedup).length
    mentions_last_5min := recent.length
    mentions_last_hour := hourly.length
    velocity := roundTo 2 ((recent.length : ℝ) / 5) }

/-- The read methods of `HypeCalculator` perform no assignment to
`self.mentions` or `self._last_cleanup`; each call is embedded as the pair of
its return value and the state the object holds after the call. -/
noncomputable def get_hype_scores_call (st : HypeCalculator) (now : ℝ) (top_n : ℕ) :
    List HypeScore × HypeCalculator :=
  (get_hype_scores st now top_n, st)

/-- `get_ticker_hype` as a call returning the post-call state. -/
noncomputable def get_ticker_hype_call (st : HypeCalculator) (tk : String) (now : ℝ) :
    Option HypeScore × HypeCalculator :=
  (get_ticker_hype st tk now, st)

/-- `get_stats` as a call returning the post-call state. -/
noncomputable def get_stats_call (st : HypeCalculator) (now : ℝ) :
    GlobalStats × HypeCalculator :=
  (get_stats st now, st)

/-! ## The batch influence selector (`backend/main.py`)

The pending-mention buffer holds dictionaries built in `process_mention`;
the fields used by the selector logic are modelled (`score` is the
platform engagement signal, `Reddit upvotes - downvotes`). -/

/-- A buffered mention dictionary from `process_mention` (the fields the
selector logic reads). -/
structure PendingMention where
  ticker : String
  content : String
  sentiment : ℝ
  content_type : String
  score : ℤ

/-- The featured-mention choice of `broadcast_loop`: absent when the buffer
is empty (no `latest` key in the payload), otherwise
`max(pending_mentions, key=lambda m: m["score"])`.  Python `max` keeps the
first element among ties, replacing the current best only on a strictly
greater key. -/
def pickFeaturedMention : List PendingMention → Option PendingMention
  | [] => none
  | m :: ms => some (ms.foldl (fun best x => if best.score < x.score then x else best) m)

/-- `calculate_influence_score(mention_data, top_tickers)` (the earlier,
multi-factor influence formula, kept in the source but not used by the
deployed broadcast path). -/
noncomputable def calculate_influence_score (m : PendingMention)
    (top_tickers : List String) : ℝ :=
  (if m.content_type = "post" then 1.5 else 1.0) *
    (1 + |m.sentiment|) *
    (if m.ticker ∈ top_tickers then 2.0 else 1.0)

/-- `get_most_influential_mention(mentions, top_tickers)` (dead code on the
deployed path): linear scan keeping the first mention whose influence score
strictly exceeds the best so far, starting from `best_score = -1`. -/
noncomputable def get_most_influential_mention (ms : List PendingMention)
    (top_tickers : List String) : Option PendingMention :=
  (ms.foldl
    (fun acc m =>
      if acc.2 < calculate_influence_score m top_tickers then
        (some m, calculate_influence_score m top_tickers)
      else acc)
    ((none : Option PendingMention), (-1 : ℝ))).1

/-- Lexicographic (lexical) order on ticker symbols, used to state the
tie-break the specification prescribes for equal hype. -/
def lexLt : List Char → List Char → Bool
  | [], [] => false
  | [], _ :: _ => true
  | _ :: _, [] => false
  | a :: as, b :: bs => if a < b then true else if b < a then false else lexLt as bs

/-! ## Theorems -/

/-- The lexicon of the spec example for C2: `CEO` is a valid ticker and an
excluded word; no entity phrases. -/
def lexCEO : LexiconStore :=
  ⟨[['C','E','O']], [['C','E','O']], []⟩

/-- Membership in the plain extraction result, strategy by strategy. -/
theorem mem_extract_tickers (lex : LexiconStore) (text t : List Char) :
    t ∈ extract_tickers lex text ↔
      (t ∈ cashtagCaptures text ∧ t ∈ lex.validTickers) ∨
      (t ∈ standaloneCaptures text ∧ t ∈ lex.validTickers ∧ t ∉ lex.excludedWords) ∨
      (∃ p ∈ lex.entityIndex, entityOccurs (toLowerList text) p.1 = true ∧ p.2 = t) := by
  simp only [extract_tickers, Finset.mem_union, List.mem_toFinset, List.mem_filter,
    List.mem_map, decide_eq_true_eq]
  constructor
  · rintro ((⟨h1, h2⟩ | ⟨h1, h2⟩) | ⟨p, ⟨hp, hocc⟩, hpt⟩)
    · exact Or.inl ⟨h1, h2⟩
    · exact Or.inr (Or.inl ⟨h1, h2⟩)
    · exact Or.inr (Or.inr ⟨p, hp, hocc, hpt⟩)
  · rintro (⟨h1, h2⟩ | ⟨h1, h2⟩ | ⟨p, hp, hocc, hpt⟩)
    · exact Or.inl (Or.inl ⟨h1, h2⟩)
    · exact Or.inl (Or.inr ⟨h1, h2⟩)
    · exact Or.inr ⟨p, ⟨hp, hocc⟩, hpt⟩

/-- C2: for a symbol that is both a valid ticker and an excluded word, the
excluded-word filter applies only to the standalone strategy: the symbol is
extracted whenever it occurs as a word-bounded cashtag capture, and it is not
extracted when it is not a cashtag capture and no entity phrase of the index
maps to it in the text — in particular a bare word-bounded uppercase
occurrence (a standalone capture) never suffices. -/
theorem cashtag_bypasses_excluded_words (lex : LexiconStore) (text T : List Char)
    (hv : T ∈ lex.validTickers) (hx : T ∈ lex.excludedWords) :
    (T ∈ cashtagCaptures text → T ∈ extract_tickers lex text) ∧
    (T ∉ cashtagCaptures text →
      (∀ p ∈ lex.entityIndex, p.2 = T → entityOccurs (toLowerList text) p.1 = false) →
      T ∉ extract_tickers lex text) := by
  constructor
  · intro hc
    exact (mem_extract_tickers lex text T).mpr (Or.inl ⟨hc, hv⟩)
  · intro hnc hent hmem
    rcases (mem_extract_tickers lex text T).mp hmem with
      ⟨hc, _⟩ | ⟨_, _, hex⟩ | ⟨p, hp, hocc, hpt⟩
    · exact hnc hc
    · exact hex hx
    · rw [hent p hp hpt] at hocc
      exact Bool.false_ne_true hocc

/-- Witness for C2 at the concrete lexicon of the spec example:
`CEO` valid and excluded, no entities; `$CEO up` resolves `CEO`,
`The CEO said buy` does not. -/
theorem cashtag_bypasses_excluded_words_witness :
    ['C','E','O'] ∈ lexCEO.validTickers ∧ ['C','E','O'] ∈ lexCEO.excludedWords ∧
    ['C','E','O'] ∈ extract_tickers lexCEO "$CEO up".toList ∧
    ['C','E','O'] ∉ extract_tickers lexCEO "The CEO said buy".toList :=
  ⟨by decide, by decide,
   (cashtag_bypasses_excluded_words lexCEO "$CEO up".toList ['C','E','O']
      (by decide) (by decide)).1 (by decide),
   (cashtag_bypasses_excluded_words lexCEO "The CEO said buy".toList ['C','E','O']
      (by decide) (by decide)).2 (by decide) (by decide)⟩

/-- The cashtag loop records exactly the valid, not-yet-seen captures, and
extends the seen set with the valid captures. -/
theorem ctxCashtagLoop_spec (lex : LexiconStore) (ts : List (List Char)) :
    ∀ (seen : List (List Char)) (x : List Char),
      (x ∈ (ctxCashtagLoop lex ts seen).1.map Prod.fst ↔
        x ∈ ts ∧ x ∈ lex.validTickers ∧ x ∉ seen) ∧
      (x ∈ (ctxCashtagLoop lex ts seen).2 ↔
        x ∈ seen ∨ (x ∈ ts ∧ x ∈ lex.validTickers)) := by
  induction ts with
  | nil => intro seen x; simp [ctxCashtagLoop]
  | cons t ts ih =>
    intro seen x
    by_cases h : t ∈ lex.validTickers ∧ t ∉ seen
    · have iha := ih (t :: seen) x
      simp only [ctxCashtagLoop, if_pos h, List.map_cons, List.mem_cons]
      rw [iha.1, iha.2]
      simp only [List.mem_cons]
      obtain ⟨h1, h2⟩ := h
      by_cases hxt : x = t
      · subst hxt
        constructor <;> tauto
      · constructor <;> tauto
    · have iha := ih seen x
      simp only [ctxCashtagLoop, if_neg h, List.mem_cons]
      rw [iha.1, iha.2]
      rw [not_and_or, not_not] at h
      by_cases hxt : x = t
      · subst hxt
        constructor <;> tauto
      · constructor <;> tauto

set_option maxHeartbeats 1000000 in
/-- The standalone loop records exactly the valid, not-excluded, not-yet-seen
captures, and extends the seen set accordingly. -/
theorem ctxStandaloneLoop_spec (lex : LexiconStore) (ts : List (List Char)) :
    ∀ (seen : List (List Char)) (x : List Char),
      (x ∈ (ctxStandaloneLoop lex ts seen).1.map Prod.fst ↔
        (x ∈ ts ∧ x ∈ lex.validTickers ∧ x ∉ lex.excludedWords) ∧ x ∉ seen) ∧
      (x ∈ (ctxStandaloneLoop lex ts seen).2 ↔
        x ∈ seen ∨ (x ∈ ts ∧ x ∈ lex.validTickers ∧ x ∉ lex.excludedWords)) := by
  induction ts with
  | nil => intro seen x; simp [ctxStandaloneLoop]
  | cons t ts ih =>
    intro seen x
    by_cases h : t ∈ lex.validTickers ∧ t ∉ lex.excludedWords ∧ t ∉ seen
    · have iha := ih (t :: seen) x
      simp only [ctxStandaloneLoop, if_pos h, List.map_cons, List.mem_cons]
      rw [iha.1, iha.2]
      simp only [List.mem_cons]
      obtain ⟨h1, h2, h3⟩ := h
      by_cases hxt : x = t
      · subst hxt
        constructor <;> tauto
      · constructor <;> tauto
    · have iha := ih seen x
      simp only [ctxStandaloneLoop, if_neg h, List.mem_cons]
      rw [iha.1, iha.2]
      rw [not_and_or, not_and_or, not_not, not_not] at h
      by_cases hxt : x = t
      · subst hxt
        constructor <;> tauto
      · constructor <;> tauto

/-- The entity loop records exactly the mapped tickers of the phrases found
in the text that are not yet seen, and extends the seen set with every mapped
ticker of a found phrase. -/
theorem ctxEntityLoop_spec (tl : List Char) (ps : List (List Char × List Char)) :
    ∀ (seen : List (List Char)) (x : List Char),
      (x ∈ (ctxEntityLoop tl ps seen).1.map Prod.fst ↔
        x ∈ (ps.filter (fun p => entityOccurs tl p.1)).map Prod.snd ∧ x ∉ seen) ∧
      (x ∈ (ctxEntityLoop tl ps seen).2 ↔
        x ∈ seen ∨ x ∈ (ps.filter (fun p => entityOccurs tl p.1)).map Prod.snd) := by
  induction ps with
  | nil => intro seen x; simp [ctxEntityLoop]
  | cons p ps ih =>
    intro seen x
    by_cases h : p.2 ∉ seen ∧ entityOccurs tl p.1
    · have iha := ih (p.2 :: seen) x
      have hfilter : List.filter (fun q => entityOccurs tl q.1) (p :: ps) =
          p :: List.filter (fun q => entityOccurs tl q.1) ps :=
        List.filter_cons_of_pos h.2
      simp only [ctxEntityLoop, if_pos h, List.map_cons, List.mem_cons, hfilter]
      rw [iha.1, iha.2]
      simp only [List.mem_cons]
      obtain ⟨h1, h2⟩ := h
      by_cases hxp : x = p.2
      · subst hxp
        constructor <;> tauto
      · constructor <;> tauto
    · have iha := ih seen x
      rw [not_and_or, not_not] at h
      rcases h with h | h
      · simp only [ctxEntityLoop]
        rw [if_neg (by tauto)]
        by_cases hb : entityOccurs tl p.1
        · have hfilter : List.filter (fun q => entityOccurs tl q.1) (p :: ps) =
              p :: List.filter (fun q => entityOccurs tl q.1) ps :=
            List.filter_cons_of_pos hb
          simp only [hfilter, List.map_cons, List.mem_cons]
          rw [iha.1, iha.2]
          by_cases hxp : x = p.2
          · subst hxp
            constructor <;> tauto
          · constructor <;> tauto
        · have hfilter : List.filter (fun q => entityOccurs tl q.1) (p :: ps) =
              List.filter (fun q => entityOccurs tl q.1) ps :=
            List.filter_cons_of_neg (by simpa using hb)
          simp only [hfilter]
          rw [iha.1, iha.2]
          constructor <;> tauto
      · simp only [ctxEntityLoop]
        rw [if_neg (by tauto)]
        have hfilter : List.filter (fun q => entityOccurs tl q.1) (p :: ps) =
            List.filter (fun q => entityOccurs tl q.1) ps :=
          List.filter_cons_of_neg (by simpa using h)
        simp only [hfilter]
        rw [iha.1, iha.2]
        constructor <;> tauto

set_option maxHeartbeats 1600000 in
/-- C8: the set of distinct tickers reported by the diagnostic
context-carrying variant equals the set returned by plain extraction — the
priority/first-match-wins bookkeeping changes only which strategy is
reported, never whether a ticker appears. -/
theorem with_context_matches_plain (lex : LexiconStore) (text : List Char) :
    ((extract_tickers_with_context lex text).map Prod.fst).toFinset =
      extract_tickers lex text := by
  ext x
  have h1 := ctxCashtagLoop_spec lex (cashtagCaptures text) [] x
  have h2 := ctxStandaloneLoop_spec lex (standaloneCaptures text)
    (ctxCashtagLoop lex (cashtagCaptures text) []).2 x
  have h3 := ctxEntityLoop_spec (toLowerList text) lex.entityIndex
    (ctxStandaloneLoop lex (standaloneCaptures text)
      (ctxCashtagLoop lex (cashtagCaptures text) []).2).2 x
  simp only [extract_tickers_with_context, List.map_append, List.mem_toFinset,
    List.mem_append]
  simp only [h1.1, h2.1, h3.1, h2.2, h1.2]
  clear h1 h2 h3
  simp only [extract_tickers, Finset.mem_union, List.mem_toFinset, List.mem_filter,
    decide_eq_true_eq, List.not_mem_nil, false_or, or_false, not_false_iff, and_true]
  tauto

/-- C6: the single-ticker snapshot is the absent value exactly when the
ticker has no live record in the window; with at least one live record it is
a present snapshot, never a zero-valued stand-in. -/
theorem ticker_hype_absent_iff_no_records (st : HypeCalculator) (tk : String) (now : ℝ) :
    get_ticker_hype st tk now = none ↔ ∀ m ∈ st.mentions, m.ticker ≠ tk := by
  rw [get_ticker_hype]
  by_cases h : countFor st tk = 0
  · simp only [if_pos h, true_iff]
    intro m hm heq
    rw [countFor, List.length_eq_zero] at h
    have hmem : m ∈ mentionsFor st tk := by
      rw [mentionsFor, List.mem_filter]
      exact ⟨hm, by simp [heq]⟩
    rw [h] at hmem
    exact absurd hmem (List.not_mem_nil m)
  · simp only [if_neg h]
    constructor
    · intro habs
      exact absurd habs (Option.some_ne_none _)
    · intro hall
      exfalso
      apply h
      rw [countFor, List.length_eq_zero, mentionsFor]
      rw [List.filter_eq_nil_iff]
      intro m hm
      simpa using hall m hm

/-- Witness for C6: a never-mentioned ticker is absent; a mentioned one is
present. -/
theorem ticker_hype_absent_iff_no_records_witness :
    get_ticker_hype ⟨[], 600, 0⟩ "NVDA" 0 = none ∧
    get_ticker_hype ⟨[⟨"TSLA", 0, "comment", 0⟩], 600, 0⟩ "TSLA" 0 ≠ none := by
  constructor
  · exact (ticker_hype_absent_iff_no_records ⟨[], 600, 0⟩ "NVDA" 0).mpr (by simp)
  · intro hnone
    have := (ticker_hype_absent_iff_no_records
      ⟨[⟨"TSLA", 0, "comment", 0⟩], 600, 0⟩ "TSLA" 0).mp hnone
    exact this ⟨"TSLA", 0, "comment", 0⟩ (List.mem_singleton_self _) rfl

/-- C9 counterexample: a record whose sentiment 5 is far outside `[-1, 1]`
is accepted into the window verbatim by `add_mention` — neither rejected nor
clamped. -/
theorem out_of_range_sentiment_accepted :
    (add_mention ⟨[], 600, 0⟩ ⟨"TSLA", 0, "comment", 5⟩ 0).mentions =
      [⟨"TSLA", 0, "comment", 5⟩] ∧ ¬ ((5 : ℝ) ≤ 1) := by
  constructor
  · simp only [add_mention]
    rw [if_neg (by norm_num)]
    simp
  · norm_num

/-- C9 (amended): `add_mention` validates nothing — every record, in-range
sentiment or not, is appended to the window unchanged (and the operation
never fails); here stated for calls that do not trigger the periodic
cleanup, which would additionally drop expired records. -/
theorem add_mention_accepts_all_records (st : HypeCalculator) (r : MentionRecord)
    (now : ℝ) (h : ¬ 300 < now - st.last_cleanup) :
    (add_mention st r now).mentions = st.mentions ++ [r] ∧
    (add_mention st r now).last_cleanup = st.last_cleanup := by
  simp only [add_mention]
  rw [if_neg h]
  exact ⟨rfl, rfl⟩

/-- Witness for the amended C9, at a record with out-of-range sentiment. -/
theorem add_mention_accepts_all_records_witness :
    (add_mention ⟨[], 600, 0⟩ ⟨"GME", 0, "post", -7⟩ 0).mentions =
      [] ++ [⟨"GME", 0, "post", -7⟩] ∧
    (add_mention ⟨[], 600, 0⟩ ⟨"GME", 0, "post", -7⟩ 0).last_cleanup = (0 : ℝ) :=
  add_mention_accepts_all_records ⟨[], 600, 0⟩ ⟨"GME", 0, "post", -7⟩ 0 (by norm_num)

/-- C10: the read operations `get_hype_scores`, `get_ticker_hype` and
`get_stats` leave the aggregator state — live window and last-cleanup stamp —
unchanged; only `add_mention` (via its periodic `_cleanup_old_mentions`)
mutates it. -/
theorem read_calls_preserve_state (st : HypeCalculator) (tk : String) (now : ℝ)
    (top_n : ℕ) :
    (get_hype_scores_call st now top_n).2 = st ∧
    (get_ticker_hype_call st tk now).2 = st ∧
    (get_stats_call st now).2 = st :=
  ⟨rfl, rfl, rfl⟩

/-- The linear scan of Python `max(batch, key=score)` starting from `cur`:
the result splits the scanned list so that everything before it scores
strictly less (first-seen tie-break) and nothing scores more. -/
theorem foldl_max_spec (cur : PendingMention) (ms : List PendingMention) :
    ∃ pre suf,
      cur :: ms =
        pre ++ (ms.foldl (fun best x => if best.score < x.score then x else best) cur) :: suf ∧
      (∀ x ∈ cur :: ms,
        x.score ≤ (ms.foldl (fun best x => if best.score < x.score then x else best) cur).score) ∧
      (∀ x ∈ pre,
        x.score < (ms.foldl (fun best x => if best.score < x.score then x else best) cur).score) := by
  induction ms generalizing cur with
  | nil =>
    refine ⟨[], [], rfl, ?_, ?_⟩
    · intro x hx
      simp only [List.foldl_nil]
      rcases List.mem_singleton.mp hx with rfl
      exact le_refl _
    · intro x hx
      exact absurd hx (List.not_mem_nil x)
  | cons a ms ih =>
    by_cases hlt : cur.score < a.score
    · obtain ⟨pre1, suf1, hsplit, hmax, hpre⟩ := ih a
      simp only [List.foldl_cons, if_pos hlt]
      refine ⟨cur :: pre1, suf1, ?_, ?_, ?_⟩
      · rw [List.cons_append, ← hsplit]
      · intro x hx
        rcases List.mem_cons.mp hx with rfl | hx2
        · exact le_of_lt (lt_of_lt_of_le hlt (hmax a (List.mem_cons_self a ms)))
        · exact hmax x hx2
      · intro x hx
        rcases List.mem_cons.mp hx with rfl | hx2
        · exact lt_of_lt_of_le hlt (hmax a (List.mem_cons_self a ms))
        · exact hpre x hx2
    · obtain ⟨pre1, suf1, hsplit, hmax, hpre⟩ := ih cur
      simp only [List.foldl_cons, if_neg hlt]
      push_neg at hlt
      cases pre1 with
      | nil =>
        simp only [List.nil_append] at hsplit
        have hrcur : (ms.foldl (fun best x => if best.score < x.score then x else best) cur)
            = cur := (List.cons_eq_cons.mp hsplit).1.symm
        refine ⟨[], a :: ms, ?_, ?_, ?_⟩
        · rw [List.nil_append, hrcur]
        · intro x hx
          rcases List.mem_cons.mp hx with rfl | hx2
          · rw [hrcur]
          rcases List.mem_cons.mp hx2 with rfl | hx3
          · rw [hrcur]; exact hlt
          · exact hmax x (List.mem_cons_of_mem _ hx3)
        · intro x hx
          exact absurd hx (List.not_mem_nil x)
      | cons q pre2 =>
        have hq := List.cons_eq_cons.mp hsplit
        obtain ⟨rfl, hms⟩ := hq
        refine ⟨cur :: a :: pre2, suf1, ?_, ?_, ?_⟩
        · simp only [List.cons_append]
          exact congrArg (fun l => cur :: a :: l) hms
        · intro x hx
          have hcur : cur.score <
              (ms.foldl (fun best x => if best.score < x.score then x else best) cur).score :=
            hpre cur (List.mem_cons_self _ _)
          rcases List.mem_cons.mp hx with rfl | hx2
          · exact le_of_lt hcur
          rcases List.mem_cons.mp hx2 with rfl | hx3
          · exact le_of_lt (lt_of_le_of_lt hlt hcur)
          · exact hmax x (List.mem_cons_of_mem _ hx3)
        · intro x hx
          have hcur : cur.score <
              (ms.foldl (fun best x => if best.score < x.score then x else best) cur).score :=
            hpre cur (List.mem_cons_self _ _)
          rcases List.mem_cons.mp hx with rfl | hx2
          · exact hcur
          rcases List.mem_cons.mp hx2 with rfl | hx3
          · exact lt_of_le_of_lt hlt hcur
          · exact hpre x (List.mem_cons_of_mem _ hx3)

/-- C5: the featured-mention selection of the broadcast tick returns the
distinguishable absent value on an empty batch, and on a non-empty batch the
first element attaining the maximal engagement score: everything in the batch
scores no more, and everything before the chosen element scores strictly
less. -/
theorem pick_featured_spec (batch : List PendingMention) :
    (batch = [] → pickFeaturedMention batch = none) ∧
    (∀ b bs, batch = b :: bs →
      ∃ m pre suf,
        pickFeaturedMention batch = some m ∧
        batch = pre ++ m :: suf ∧
        (∀ x ∈ batch, x.score ≤ m.score) ∧
        (∀ x ∈ pre, x.score < m.score)) := by
  constructor
  · rintro rfl
    rfl
  · rintro b bs rfl
    obtain ⟨pre, suf, hsplit, hmax, hpre⟩ := foldl_max_spec b bs
    exact ⟨_, pre, suf, rfl, hsplit, hmax, hpre⟩

/-- The three-mention batch of the repository websocket test. -/
def mentionLowTSLA : PendingMention := ⟨"TSLA", "Low score TSLA", 0.5, "comment", 100⟩

/-- The high-score mention of the websocket test batch. -/
def mentionHighNVDA : PendingMention := ⟨"NVDA", "High score NVDA", 0.5, "comment", 5000⟩

/-- The medium-score mention of the websocket test batch. -/
def mentionMidAMD : PendingMention := ⟨"AMD", "Medium score AMD", 0.5, "comment", 200⟩

/-- Witness for C5 on the empty batch and on the test batch. -/
theorem pick_featured_spec_witness :
    pickFeaturedMention ([] : List PendingMention) = none ∧
    ∃ m pre suf,
      pickFeaturedMention [mentionLowTSLA, mentionHighNVDA, mentionMidAMD] = some m ∧
      [mentionLowTSLA, mentionHighNVDA, mentionMidAMD] = pre ++ m :: suf ∧
      (∀ x ∈ [mentionLowTSLA, mentionHighNVDA, mentionMidAMD], x.score ≤ m.score) ∧
      (∀ x ∈ pre, x.score < m.score) :=
  ⟨(pick_featured_spec []).1 rfl,
   (pick_featured_spec [mentionLowTSLA, mentionHighNVDA, mentionMidAMD]).2
     mentionLowTSLA [mentionHighNVDA, mentionMidAMD] rfl⟩

/-- Both base weights are nonnegative. -/
theorem baseWeight_nonneg (ct : String) : 0 ≤ baseWeight ct := by
  rw [baseWeight, POST_WEIGHT, COMMENT_WEIGHT]
  split <;> norm_num

/-- Rounding to `d` decimals is monotone. -/
theorem roundTo_mono (d : ℕ) {x y : ℝ} (h : x ≤ y) : roundTo d x ≤ roundTo d y := by
  rw [roundTo, roundTo]
  have hr : round (x * (10 : ℝ) ^ d) ≤ round (y * (10 : ℝ) ^ d) := by
    rw [round_eq, round_eq]
    exact Int.floor_le_floor (by nlinarith [pow_pos (by norm_num : (0:ℝ) < 10) d])
  have hpow : (0 : ℚ) < 10 ^ d := by positivity
  exact (div_le_div_iff_of_pos_right hpow).mpr (by exact_mod_cast hr)

/-- Rounding to `d` decimals moves a value by at most half a unit in the
last place. -/
theorem roundTo_abs_sub (d : ℕ) (x : ℝ) :
    |(roundTo d x : ℝ) - x| ≤ 1 / 2 / 10 ^ d := by
  have h10 : (0 : ℝ) < 10 ^ d := by positivity
  have hrw : (roundTo d x : ℝ) - x =
      ((round (x * 10 ^ d) : ℝ) - x * 10 ^ d) / 10 ^ d := by
    rw [roundTo]
    push_cast
    field_simp
    ring
  rw [hrw, abs_div, abs_of_pos h10]
  gcongr
  rw [abs_sub_comm]
  exact abs_sub_round _

/-- The reported single-ticker hype always equals the rounded total decayed
weight (with zero records the total is zero and the absent value reads 0). -/
theorem reportedHype_eq_roundTo (st : HypeCalculator) (tk : String) (now : ℝ) :
    reportedHype st tk now = roundTo 2 (totalWeight st tk now) := by
  rw [reportedHype, get_ticker_hype]
  by_cases h : countFor st tk = 0
  · rw [if_pos h]
    have hmf : mentionsFor st tk = [] := by
      rwa [countFor, List.length_eq_zero] at h
    simp [totalWeight, hmf, roundTo]
  · rw [if_neg h]
    rfl

/-- A single decayed weight is antitone in the evaluation instant. -/
theorem calculate_weight_antitone (hl : ℝ) (m : MentionRecord) {t1 t2 : ℝ}
    (hhl : 0 < hl) (h : t1 ≤ t2) :
    calculate_weight hl m t2 ≤ calculate_weight hl m t1 := by
  rw [calculate_weight, calculate_weight]
  apply mul_le_mul_of_nonneg_left _ (baseWeight_nonneg _)
  rw [Real.exp_le_exp, neg_le_neg_iff]
  have hlam : 0 ≤ decayLambda hl :=
    div_nonneg (Real.log_nonneg (by norm_num)) hhl.le
  exact mul_le_mul_of_nonneg_left (by linarith) hlam

/-- The per-ticker total decayed weight is antitone in the evaluation
instant. -/
theorem totalWeight_antitone (st : HypeCalculator) (tk : String) {t1 t2 : ℝ}
    (hhl : 0 < st.half_life) (h : t1 ≤ t2) :
    totalWeight st tk t2 ≤ totalWeight st tk t1 := by
  rw [totalWeight, totalWeight]
  exact List.sum_le_sum fun m _ => calculate_weight_antitone st.half_life m hhl h

/-- C3: with no records added between two evaluation instants, the hype the
single-ticker snapshot reports never increases as the instant advances
(decay only); and a single record of base weight `w` with half-life `H`
reports hype within the 2-decimal rounding tolerance (`1/200`) of `w/2` at
`t0 + H` and of `w/4` at `t0 + 2H`. -/
theorem hype_decays_and_halves :
    (∀ (st : HypeCalculator) (tk : String) (t1 t2 : ℝ),
      0 < st.half_life → t1 ≤ t2 →
      reportedHype st tk t2 ≤ reportedHype st tk t1) ∧
    (∀ (tk ct : String) (t0 s H lc : ℝ), 0 < H →
      |(reportedHype ⟨[⟨tk, t0, ct, s⟩], H, lc⟩ tk (t0 + H) : ℝ) -
          baseWeight ct / 2| ≤ 1 / 200 ∧
      |(reportedHype ⟨[⟨tk, t0, ct, s⟩], H, lc⟩ tk (t0 + 2 * H) : ℝ) -
          baseWeight ct / 4| ≤ 1 / 200) := by
  constructor
  · intro st tk t1 t2 hhl h12
    rw [reportedHype_eq_roundTo, reportedHype_eq_roundTo]
    exact roundTo_mono 2 (totalWeight_antitone st tk hhl h12)
  · intro tk ct t0 s H lc hH
    have hmf : mentionsFor ⟨[⟨tk, t0, ct, s⟩], H, lc⟩ tk = [⟨tk, t0, ct, s⟩] := by
      simp [mentionsFor]
    constructor
    · have htw : totalWeight ⟨[⟨tk, t0, ct, s⟩], H, lc⟩ tk (t0 + H) =
          baseWeight ct / 2 := by
        simp only [totalWeight, hmf, List.map_cons, List.map_nil, List.sum_cons,
          List.sum_nil, add_zero, calculate_weight]
        have harg : decayLambda H * (t0 + H - t0) = Real.log 2 := by
          rw [decayLambda]
          field_simp
        rw [harg, Real.exp_neg, Real.exp_log (by norm_num : (0:ℝ) < 2)]
        ring
      rw [reportedHype_eq_roundTo, htw]
      calc |(roundTo 2 (baseWeight ct / 2) : ℝ) - baseWeight ct / 2| ≤
          1 / 2 / 10 ^ 2 := roundTo_abs_sub 2 _
        _ ≤ 1 / 200 := by norm_num
    · have htw : totalWeight ⟨[⟨tk, t0, ct, s⟩], H, lc⟩ tk (t0 + 2 * H) =
          baseWeight ct / 4 := by
        simp only [totalWeight, hmf, List.map_cons, List.map_nil, List.sum_cons,
          List.sum_nil, add_zero, calculate_weight]
        have harg : decayLambda H * (t0 + 2 * H - t0) = ((2 : ℕ) : ℝ) * Real.log 2 := by
          rw [decayLambda]
          push_cast
          field_simp
          ring
        rw [harg, Real.exp_neg, Real.exp_nat_mul, Real.exp_log (by norm_num : (0:ℝ) < 2)]
        norm_num
        ring
      rw [reportedHype_eq_roundTo, htw]
      calc |(roundTo 2 (baseWeight ct / 4) : ℝ) - baseWeight ct / 4| ≤
          1 / 2 / 10 ^ 2 := roundTo_abs_sub 2 _
        _ ≤ 1 / 200 := by norm_num

/-- Witness for C3: a concrete one-record state, evaluated later, reports no
more hype; a post at half-life distance reports within tolerance of 0.75. -/
theorem hype_decays_and_halves_witness :
    reportedHype ⟨[⟨"TSLA", 0, "comment", 0⟩], 600, 0⟩ "TSLA" 1 ≤
      reportedHype ⟨[⟨"TSLA", 0, "comment", 0⟩], 600, 0⟩ "TSLA" 0 ∧
    |(reportedHype ⟨[⟨"GME", 0, "post", 0⟩], 600, 0⟩ "GME" (0 + 600) : ℝ) -
        baseWeight "post" / 2| ≤ 1 / 200 :=
  ⟨hype_decays_and_halves.1 ⟨[⟨"TSLA", 0, "comment", 0⟩], 600, 0⟩ "TSLA" 0 1
      (by norm_num : (0:ℝ) < 600) (by norm_num),
   (hype_decays_and_halves.2 "GME" "post" 0 0 600 0 (by norm_num)).1⟩

/-- Adding a whole number of cents commutes with rounding to 2 decimals. -/
theorem roundTo_two_add_cent (x : ℝ) (k : ℤ) :
    roundTo 2 (x + (k : ℝ) / 100) = roundTo 2 x + (k : ℚ) / 100 := by
  rw [roundTo, roundTo]
  have h1 : (x + (k : ℝ) / 100) * (10 : ℝ) ^ 2 = x * (10 : ℝ) ^ 2 + (k : ℝ) := by
    ring
  rw [h1, round_add_int]
  push_cast
  ring

/-- C4 counterexample: on an empty aggregator, adding a post dated 1200
seconds in the past (decayed weight `1.5 · 2⁻² = 0.375` at the moment of
addition) moves the reported hype from 0 to 0.38 — the 2-decimal rounding
makes the increase differ from the weight. -/
theorem decayed_increment_not_exact :
    (reportedHype (add_mention ⟨[], 600, 0⟩ ⟨"TSLA", -1200, "post", 0⟩ 0) "TSLA" 0 : ℝ) -
        (reportedHype ⟨[], 600, 0⟩ "TSLA" 0 : ℝ) ≠
      calculate_weight 600 ⟨"TSLA", -1200, "post", 0⟩ 0 := by
  have hw : calculate_weight 600 ⟨"TSLA", -1200, "post", 0⟩ 0 = 3 / 8 := by
    rw [calculate_weight]
    have harg : decayLambda 600 * ((0 : ℝ) - (-1200)) = ((2 : ℕ) : ℝ) * Real.log 2 := by
      rw [decayLambda]
      push_cast
      field_simp
      ring
    rw [harg, Real.exp_neg, Real.exp_nat_mul, Real.exp_log (by norm_num : (0:ℝ) < 2)]
    norm_num [baseWeight, POST_WEIGHT]
  have hbefore : reportedHype ⟨[], 600, 0⟩ "TSLA" 0 = 0 := by
    rw [reportedHype_eq_roundTo]
    have h0 : totalWeight ⟨[], 600, 0⟩ "TSLA" 0 = 0 := by
      simp [totalWeight, mentionsFor]
    rw [h0, roundTo]
    norm_num
  have hmen : add_mention ⟨[], 600, 0⟩ ⟨"TSLA", -1200, "post", 0⟩ 0 =
      ⟨[⟨"TSLA", -1200, "post", 0⟩], 600, 0⟩ := by
    simp only [add_mention]
    rw [if_neg (by norm_num)]
    simp
  have hafter : reportedHype ⟨[⟨"TSLA", -1200, "post", 0⟩], 600, 0⟩ "TSLA" 0 = 38 / 100 := by
    rw [reportedHype_eq_roundTo]
    have htw : totalWeight ⟨[⟨"TSLA", -1200, "post", 0⟩], 600, 0⟩ "TSLA" 0 = 3 / 8 := by
      rw [totalWeight]
      have hmf : mentionsFor ⟨[⟨"TSLA", -1200, "post", 0⟩], 600, 0⟩ "TSLA" =
          [⟨"TSLA", -1200, "post", 0⟩] := by
        simp [mentionsFor]
      rw [hmf]
      simp only [List.map_cons, List.map_nil, List.sum_cons, List.sum_nil, add_zero]
      exact hw
    rw [htw, roundTo]
    have hround : round ((3 / 8 : ℝ) * (10 : ℝ) ^ 2) = 38 := by
      rw [round_eq]
      norm_num
    rw [hround]
    norm_num
  rw [hmen, hafter, hbefore, hw]
  push_cast
  norm_num

/-- C4 (amended): adding a record with zero age — decayed weight exactly the
base weight, 1.5 for a post and 1.0 for a comment — through an `add_mention`
that does not trigger the periodic cleanup increases the reported hype by
exactly that base weight; a record with a general decayed weight shifts the
reported hype only up to the 2-decimal rounding, and a triggered cleanup may
additionally drop expired records. -/
theorem add_mention_zero_age_exact_increment (st : HypeCalculator) (tk ct : String)
    (s now : ℝ) (h : ¬ 300 < now - st.last_cleanup) :
    (reportedHype (add_mention st ⟨tk, now, ct, s⟩ now) tk now : ℝ) =
      (reportedHype st tk now : ℝ) + baseWeight ct := by
  have hmen : (add_mention st ⟨tk, now, ct, s⟩ now).mentions =
      st.mentions ++ [⟨tk, now, ct, s⟩] := by
    simp only [add_mention]
    rw [if_neg h]
  have hhl : (add_mention st ⟨tk, now, ct, s⟩ now).half_life = st.half_life := by
    simp only [add_mention]
    rw [if_neg h]
  have hmf : mentionsFor (add_mention st ⟨tk, now, ct, s⟩ now) tk =
      mentionsFor st tk ++ [⟨tk, now, ct, s⟩] := by
    rw [mentionsFor, hmen, List.filter_append, mentionsFor]
    congr 1
    simp
  have hwr : calculate_weight st.half_life ⟨tk, now, ct, s⟩ now = baseWeight ct := by
    rw [calculate_weight]
    simp
  have htw : totalWeight (add_mention st ⟨tk, now, ct, s⟩ now) tk now =
      totalWeight st tk now + baseWeight ct := by
    rw [totalWeight, totalWeight, hmf]
    simp only [hhl, List.map_append, List.sum_append, List.map_cons, List.map_nil,
      List.sum_cons, List.sum_nil, add_zero, hwr]
  rw [reportedHype_eq_roundTo, reportedHype_eq_roundTo, htw]
  by_cases hpost : ct = "post"
  · simp only [baseWeight, if_pos hpost, POST_WEIGHT]
    rw [show (1.5 : ℝ) = ((150 : ℤ) : ℝ) / 100 by norm_num, roundTo_two_add_cent]
    push_cast
    norm_num
  · simp only [baseWeight, if_neg hpost, COMMENT_WEIGHT]
    rw [show (1.0 : ℝ) = ((100 : ℤ) : ℝ) / 100 by norm_num, roundTo_two_add_cent]
    push_cast
    norm_num

/-- Witness for the amended C4: a zero-age comment on an empty aggregator. -/
theorem add_mention_zero_age_exact_increment_witness :
    (reportedHype (add_mention ⟨[], 600, 0⟩ ⟨"GME", 0, "comment", 0⟩ 0) "GME" 0 : ℝ) =
      (reportedHype ⟨[], 600, 0⟩ "GME" 0 : ℝ) + baseWeight "comment" :=
  add_mention_zero_age_exact_increment ⟨[], 600, 0⟩ "GME" "comment" 0 0 (by norm_num)

/-- The snapshot built for a ticker carries that ticker. -/
theorem scoreFor_ticker (st : HypeCalculator) (tk : String) (now : ℝ) :
    (scoreFor st tk now).ticker = tk := rfl

/-- The hype field of a per-ticker snapshot is the rounded total weight. -/
theorem scoreFor_hype (st : HypeCalculator) (tk : String) (now : ℝ) :
    (scoreFor st tk now).hype = roundTo 2 (totalWeight st tk now) := rfl

/-- A state with two fresh comments on tickers `ZZZ` then `AAA`, both with
identical (tying) hype. -/
def stTie : HypeCalculator :=
  ⟨[⟨"ZZZ", 0, "comment", 0⟩, ⟨"AAA", 0, "comment", 0⟩], 600, 0⟩

/-- In `stTie` the `ZZZ` record is the only one for its ticker and decays
nothing at instant 0, so the total weight is 1. -/
theorem stTie_totalZ : totalWeight stTie "ZZZ" 0 = 1 := by
  rw [totalWeight]
  have hmf : mentionsFor stTie "ZZZ" = [⟨"ZZZ", 0, "comment", 0⟩] := by
    simp [mentionsFor, stTie]
  rw [hmf]
  simp only [List.map_cons, List.map_nil, List.sum_cons, List.sum_nil, add_zero]
  simp only [calculate_weight, baseWeight]
  rw [if_neg (by decide)]
  norm_num [COMMENT_WEIGHT, Real.exp_zero]

/-- Total weight of the `AAA` record of `stTie` at instant 0. -/
theorem stTie_totalA : totalWeight stTie "AAA" 0 = 1 := by
  rw [totalWeight]
  have hmf : mentionsFor stTie "AAA" = [⟨"AAA", 0, "comment", 0⟩] := by
    simp [mentionsFor, stTie]
  rw [hmf]
  simp only [List.map_cons, List.map_nil, List.sum_cons, List.sum_nil, add_zero]
  simp only [calculate_weight, baseWeight]
  rw [if_neg (by decide)]
  norm_num [COMMENT_WEIGHT, Real.exp_zero]

/-- The tying hype of `ZZZ` in `stTie`. -/
theorem stTie_hypeZ : (scoreFor stTie "ZZZ" 0).hype = 1 := by
  rw [scoreFor_hype, stTie_totalZ, roundTo]
  norm_num [round_eq]

/-- The tying hype of `AAA` in `stTie`. -/
theorem stTie_hypeA : (scoreFor stTie "AAA" 0).hype = 1 := by
  rw [scoreFor_hype, stTie_totalA, roundTo]
  norm_num [round_eq]

/-- The pre-sort score list of `stTie` lists `ZZZ` before `AAA` (dict
insertion order = first-occurrence order in the window). -/
theorem stTie_list : hypeScoreList stTie 0 =
    [scoreFor stTie "ZZZ" 0, scoreFor stTie "AAA" 0] := by
  rw [hypeScoreList]
  have hfo : (firstOccurrenceTickers stTie.mentions).filter
      (fun tk => decide (countFor stTie tk ≠ 0)) = ["ZZZ", "AAA"] := by decide
  rw [hfo]
  rfl

/-- C1 counterexample: two tickers with equal reported hype come out of the
snapshot in first-mention order `ZZZ, AAA`, not in lexical ticker order
(`AAA` precedes `ZZZ` lexically). -/
theorem equal_hype_not_lexical :
    (get_hype_scores stTie 0 20).map HypeScore.ticker = ["ZZZ", "AAA"] ∧
    (get_hype_scores stTie 0 20).map HypeScore.hype = [1, 1] ∧
    lexLt "AAA".toList "ZZZ".toList = true := by
  have hsort : (hypeScoreList stTie 0).mergeSort
      (fun a b => decide (b.hype ≤ a.hype)) =
      [scoreFor stTie "ZZZ" 0, scoreFor stTie "AAA" 0] := by
    rw [stTie_list]
    simp only [List.mergeSort, List.merge]
    norm_num
    rw [List.cons_merge_cons, stTie_hypeA, stTie_hypeZ, if_pos (by decide),
      List.nil_merge]
  refine ⟨?_, ?_, by decide⟩
  · rw [get_hype_scores, hsort]
    simp [scoreFor_ticker]
  · rw [get_hype_scores, hsort]
    simp [stTie_hypeZ, stTie_hypeA]

/-- C1 (amended): the snapshot sequence is sorted by hype descending and is
deterministic, but equal-hype entries appear in the stable pre-sort order —
the order tickers first occur in the mention window (Python dict insertion
order) — not in lexical ticker order. -/
theorem get_hype_scores_sorted_stable (st : HypeCalculator) (now : ℝ) (top_n : ℕ) :
    (get_hype_scores st now top_n).Pairwise (fun a b => b.hype ≤ a.hype) ∧
    (∀ a b : HypeScore, [a, b].Sublist (hypeScoreList st now) → a.hype = b.hype →
      [a, b].Sublist ((hypeScoreList st now).mergeSort
        (fun a b => decide (b.hype ≤ a.hype)))) := by
  have htrans : ∀ a b c : HypeScore,
      (fun a b : HypeScore => decide (b.hype ≤ a.hype)) a b = true →
      (fun a b : HypeScore => decide (b.hype ≤ a.hype)) b c = true →
      (fun a b : HypeScore => decide (b.hype ≤ a.hype)) a c = true := by
    intro a b c hab hbc
    simp only [decide_eq_true_eq] at hab hbc ⊢
    exact le_trans hbc hab
  have htotal : ∀ a b : HypeScore,
      ((fun a b : HypeScore => decide (b.hype ≤ a.hype)) a b ||
        (fun a b : HypeScore => decide (b.hype ≤ a.hype)) b a) = true := by
    intro a b
    simp only [Bool.or_eq_true, decide_eq_true_eq]
    exact le_total b.hype a.hype
  constructor
  · rw [get_hype_scores]
    have hs := List.sorted_mergeSort htrans htotal (hypeScoreList st now)
    have hp := List.Pairwise.sublist (List.take_sublist top_n _) hs
    exact hp.imp fun hab => by simpa using hab
  · intro a b hsub heq
    apply List.sublist_mergeSort htrans htotal
    · rw [List.pairwise_cons]
      refine ⟨?_, List.pairwise_singleton _ _⟩
      intro c hc
      rcases List.mem_singleton.mp hc with rfl
      rw [heq]
      simp
    · exact hsub

/-- Witness for the amended C1 at the tying state: the two equal-hype
snapshots survive the sort as a sublist in pre-sort order. -/
theorem get_hype_scores_sorted_stable_witness :
    [scoreFor stTie "ZZZ" 0, scoreFor stTie "AAA" 0].Sublist
      ((hypeScoreList stTie 0).mergeSort (fun a b => decide (b.hype ≤ a.hype))) :=
  (get_hype_scores_sorted_stable stTie 0 20).2 (scoreFor stTie "ZZZ" 0)
    (scoreFor stTie "AAA" 0)
    (by rw [stTie_list])
    (by rw [stTie_hypeZ, stTie_hypeA])

/-- A state holding a record 80 minutes old (outside the 60-minute max-age
window) next to a fresh record, as produced by two `add_mention` calls that
never trigger the periodic cleanup. -/
def stExpired : HypeCalculator :=
  ⟨[⟨"AAA", -4800, "comment", 0⟩, ⟨"BBB", 0, "comment", 0⟩], 600, 0⟩

/-- The expired `AAA` record still contributes its decayed weight
`2⁻⁸ = 1/256`. -/
theorem stExpired_totalA : totalWeight stExpired "AAA" 0 = 1 / 256 := by
  rw [totalWeight]
  have hmf : mentionsFor stExpired "AAA" = [⟨"AAA", -4800, "comment", 0⟩] := by
    simp [mentionsFor, stExpired]
  rw [hmf]
  simp only [List.map_cons, List.map_nil, List.sum_cons, List.sum_nil, add_zero]
  simp only [calculate_weight, baseWeight]
  rw [if_neg (by decide)]
  have harg : decayLambda (stExpired.half_life) * ((0 : ℝ) - (-4800)) =
      ((8 : ℕ) : ℝ) * Real.log 2 := by
    rw [stExpired, decayLambda]
    push_cast
    field_simp
    ring
  rw [harg, Real.exp_neg, Real.exp_nat_mul, Real.exp_log (by norm_num : (0:ℝ) < 2)]
  rw [COMMENT_WEIGHT]
  norm_num

/-- The hype the snapshot reports for the expired record rounds to 0, but
the ticker still appears. -/
theorem stExpired_hypeA : (scoreFor stExpired "AAA" 0).hype = 0 := by
  rw [scoreFor_hype, stExpired_totalA, roundTo]
  norm_num [round_eq]

/-- The fresh `BBB` record reports hype 1. -/
theorem stExpired_hypeB : (scoreFor stExpired "BBB" 0).hype = 1 := by
  rw [scoreFor_hype]
  have htw : totalWeight stExpired "BBB" 0 = 1 := by
    rw [totalWeight]
    have hmf : mentionsFor stExpired "BBB" = [⟨"BBB", 0, "comment", 0⟩] := by
      simp [mentionsFor, stExpired]
    rw [hmf]
    simp only [List.map_cons, List.map_nil, List.sum_cons, List.sum_nil, add_zero]
    simp only [calculate_weight, baseWeight]
    rw [if_neg (by decide)]
    norm_num [COMMENT_WEIGHT, Real.exp_zero]
  rw [htw, roundTo]
  norm_num [round_eq]

/-- The pre-sort score list of `stExpired` covers both tickers. -/
theorem stExpired_list : hypeScoreList stExpired 0 =
    [scoreFor stExpired "AAA" 0, scoreFor stExpired "BBB" 0] := by
  rw [hypeScoreList]
  have hfo : (firstOccurrenceTickers stExpired.mentions).filter
      (fun tk => decide (countFor stExpired tk ≠ 0)) = ["AAA", "BBB"] := by decide
  rw [hfo]
  rfl

/-- C7 counterexample: two `add_mention` calls whose record timestamps span
80 minutes (more than the 60-minute max age) trigger no cleanup, the expired
record stays in the window, and the subsequent snapshot still reflects its
ticker — the snapshot performs no age filtering of its own. -/
theorem snapshot_reflects_expired_records :
    add_mention (add_mention ⟨[], 600, 0⟩ ⟨"AAA", -4800, "comment", 0⟩ 0)
        ⟨"BBB", 0, "comment", 0⟩ 0 = stExpired ∧
    (get_hype_scores stExpired 0 20).map HypeScore.ticker = ["BBB", "AAA"] ∧
    ¬ ((0 : ℝ) - 60 * 60 < -4800) := by
  refine ⟨?_, ?_, by norm_num⟩
  · have h1 : add_mention ⟨[], 600, 0⟩ ⟨"AAA", -4800, "comment", 0⟩ 0 =
        ⟨[⟨"AAA", -4800, "comment", 0⟩], 600, 0⟩ := by
      simp only [add_mention]
      rw [if_neg (by norm_num)]
      simp
    rw [h1]
    simp only [add_mention]
    rw [if_neg (by norm_num)]
    simp [stExpired]
  · have hsort : (hypeScoreList stExpired 0).mergeSort
        (fun a b => decide (b.hype ≤ a.hype)) =
        [scoreFor stExpired "BBB" 0, scoreFor stExpired "AAA" 0] := by
      rw [stExpired_list]
      simp only [List.mergeSort, List.merge]
      norm_num
      rw [List.cons_merge_cons, stExpired_hypeA, stExpired_hypeB,
        if_neg (by decide), List.merge_right]
    rw [get_hype_scores, hsort]
    simp [scoreFor_ticker]

/-- C7 (amended): the snapshot does not filter by age — expired records are
reflected until a cleanup runs; pruning happens only inside an `add_mention`
arriving more than 300 seconds after the last cleanup, and such a call
retains exactly the records (new one included) whose timestamp lies within
the 60-minute max age of the cleanup instant, bounding the window by the
in-window records. -/
theorem triggered_cleanup_prunes_window (st : HypeCalculator) (r : MentionRecord)
    (now : ℝ) (h : 300 < now - st.last_cleanup) :
    (add_mention st r now).mentions =
      (st.mentions ++ [r]).filter (fun m => decide (now - 60 * 60 < m.timestamp)) ∧
    (∀ m ∈ (add_mention st r now).mentions, now - 60 * 60 < m.timestamp) ∧
    (add_mention st r now).last_cleanup = now := by
  have h1 : add_mention st r now =
      cleanup_old_mentions { st with mentions := st.mentions ++ [r] } now := by
    simp only [add_mention]
    rw [if_pos h]
  refine ⟨by rw [h1]; rfl, ?_, by rw [h1]; rfl⟩
  intro m hm
  rw [h1] at hm
  simp only [cleanup_old_mentions] at hm
  have hmem := List.of_mem_filter hm
  simpa using hmem

/-- Witness for the amended C7: a triggered cleanup drops the 5000-second-old
record and keeps the fresh one. -/
theorem triggered_cleanup_prunes_window_witness :
    (add_mention ⟨[⟨"AAA", -5000, "comment", 0⟩], 600, -400⟩
        ⟨"BBB", 0, "comment", 0⟩ 0).mentions =
      (([⟨"AAA", -5000, "comment", 0⟩] : List MentionRecord) ++
          ([⟨"BBB", 0, "comment", 0⟩] : List MentionRecord)).filter
        (fun m => decide ((0 : ℝ) - 60 * 60 < m.timestamp)) ∧
    (∀ m ∈ (add_mention ⟨[⟨"AAA", -5000, "comment", 0⟩], 600, -400⟩
        ⟨"BBB", 0, "comment", 0⟩ 0).mentions, (0 : ℝ) - 60 * 60 < m.timestamp) ∧
    (add_mention ⟨[⟨"AAA", -5000, "comment", 0⟩], 600, -400⟩
        ⟨"BBB", 0, "comment", 0⟩ 0).last_cleanup = 0 :=
  triggered_cleanup_prunes_window ⟨[⟨"AAA", -5000, "comment", 0⟩], 600, -400⟩
    ⟨"BBB", 0, "comment", 0⟩ 0 (by norm_num)

end RedditHeatmap
